import Mathlib

/-!
Shallow embedding of the dynamic-array library in src/cu_array.h.

Modelling conventions:
* A C array value `cu_array_t` becomes `CuArray α`: the `data` pointer is
  `Option (List (Option α))` (`none` = NULL); a non-null buffer is a list of
  `capacity` slots, where a slot `none` models uninitialized (junk) memory
  and `some v` models a stored element.  All pointer arithmetic in the C
  source is in multiples of `item_size` bytes at element-aligned offsets, so
  the embedding works at element granularity; `item_size` is kept as a field
  but byte arithmetic is not re-modelled (the degenerate `item_size == 0`
  array is outside every claim).
* A C function returning `int` (0 success / 1 error) and mutating `*arr`
  becomes a function returning `Nat × CuArray α`; operations whose body can
  dereference NULL or read or write out of bounds return
  `Option (Nat × CuArray α)`, where `none` marks that undefined behaviour
  was reached.
* `malloc` and `realloc` can fail; each operation that may allocate takes an
  oracle `allocOk : Bool` telling whether its single allocation call
  succeeds.  `realloc` preserves the prefix of the old buffer and leaves the
  new tail uninitialized.
* The comparator passed to qsort is used by the C code only through the test
  `compare(x, y) < 0`; a comparator consistent with a total order makes that
  test equivalent to `x < y` in a linear order, so the sort is embedded over
  an arbitrary `[LinearOrder α]`.
-/

namespace CUtils

/-- CU_ARRAY_DEFAULT_SIZE from src/cu_array.h (default initial capacity). -/
def CU_ARRAY_DEFAULT_SIZE : Nat := 32

/-- The struct cu_array_s of src/cu_array.h at element granularity. -/
structure CuArray (α : Type) where
  data : Option (List (Option α))
  item_size : Nat
  length : Nat
  capacity : Nat
deriving Repr, DecidableEq

/-- The all-zero struct value, written (cu_array_t){0} in the C source. -/
def zeroState {α : Type} : CuArray α := ⟨none, 0, 0, 0⟩

/-- realloc of a buffer to hold n slots: the old contents are preserved
(up to the new size) and any newly acquired tail is uninitialized. -/
def reallocBuf {α : Type} (buf : List (Option α)) (n : Nat) : List (Option α) :=
  buf.take n ++ List.replicate (n - buf.length) none

/-- memcpy of a single element into slot d of the buffer; writing out of
bounds is undefined behaviour (`none`). -/
def setSlot {α : Type} (buf : List (Option α)) (d : Nat) (v : Option α) :
    Option (List (Option α)) :=
  if d < buf.length then some (buf.set d v) else none

/-- memcpy of a block of `items.length` elements into the buffer starting at
slot d (used by extend); out of bounds is undefined behaviour. -/
def writeItems {α : Type} (buf : List (Option α)) (d : Nat) (items : List α) :
    Option (List (Option α)) :=
  if d + items.length ≤ buf.length then
    some (buf.take d ++ items.map some ++ buf.drop (d + items.length))
  else none

/-- memmove of cnt elements inside the buffer, from slot src to slot dst;
`dst`/`src` are the (possibly NULL) pointers produced by cu_array_at.  A
zero-length move is a no-op; otherwise a NULL pointer or an out-of-bounds
range is undefined behaviour (`none`).  The move is overlap-safe: the
source range is read from the original buffer. -/
def memmoveEl {α : Type} (buf : List (Option α)) (dst src : Option Nat)
    (cnt : Nat) : Option (List (Option α)) :=
  if cnt = 0 then some buf
  else
    match dst, src with
    | some d, some s =>
        if d + cnt ≤ buf.length ∧ s + cnt ≤ buf.length then
          some (buf.take d ++ (buf.drop s).take cnt ++ buf.drop (d + cnt))
        else none
    | _, _ => none

/-- memcpy of one element through a (possibly NULL) destination pointer;
NULL or out of bounds is undefined behaviour. -/
def memcpyEl {α : Type} (buf : List (Option α)) (dst : Option Nat) (v : α) :
    Option (List (Option α)) :=
  match dst with
  | none => none
  | some d => setSlot buf d (some v)

/-- __cu_array_grow from src/cu_array.h under the default
CU_GROWTH_RATE_SPACE policy (new_capacity = capacity * 2). -/
def __cu_array_grow {α : Type} (st : CuArray α) (allocOk : Bool) :
    Nat × CuArray α :=
  match st.data with
  | none => (1, st)
  | some buf =>
      if st.capacity = 0 then (1, st)
      else
        let new_capacity := st.capacity * 2
        if new_capacity ≤ st.length then (1, st)
        else if allocOk then
          (0, { st with data := some (reallocBuf buf new_capacity),
                        capacity := new_capacity })
        else (1, st)

/-- cu_array_init from src/cu_array.h.  Note that on allocation failure the
struct has already been zeroed and item_size set. -/
def cu_array_init {α : Type} (st : CuArray α) (item_size : Nat)
    (allocOk : Bool) : Nat × CuArray α :=
  match st.data with
  | some _ => (1, st)
  | none =>
      if st.capacity ≠ 0 then (1, st)
      else if allocOk then
        (0, ⟨some (List.replicate CU_ARRAY_DEFAULT_SIZE none), item_size, 0,
             CU_ARRAY_DEFAULT_SIZE⟩)
      else (1, ⟨none, item_size, 0, 0⟩)

/-- cu_array_deinit from src/cu_array.h. -/
def cu_array_deinit {α : Type} (st : CuArray α) : Nat × CuArray α :=
  match st.data with
  | none => (1, st)
  | some _ => if st.capacity = 0 then (1, st) else (0, zeroState)

/-- cu_array_at from src/cu_array.h: returns the pointer to slot pos, as a
slot index, or `none` for NULL. -/
def cu_array_at {α : Type} (st : CuArray α) (pos : Nat) : Option Nat :=
  match st.data with
  | none => none
  | some _ => if st.capacity = 0 ∨ st.length ≤ pos then none else some pos

/-- Dereference of the pointer returned by cu_array_at: the slot contents at
the given logical index (`none` if cu_array_at returned NULL). -/
def cu_array_at_val {α : Type} (st : CuArray α) (pos : Nat) :
    Option (Option α) :=
  match st.data, cu_array_at st pos with
  | some buf, some idx => buf[idx]?
  | _, _ => none

/-- cu_array_append from src/cu_array.h.  `item` is the (possibly NULL)
pointer argument. -/
def cu_array_append {α : Type} (st : CuArray α) (item : Option α)
    (allocOk : Bool) : Option (Nat × CuArray α) :=
  match item with
  | none => some (1, st)
  | some v =>
      match st.data with
      | none => some (1, st)
      | some _ =>
          if st.capacity = 0 then some (1, st)
          else
            let g := if st.capacity ≤ st.length
                     then __cu_array_grow st allocOk else (0, st)
            if g.1 ≠ 0 then some (g.1, g.2)
            else
              match g.2.data with
              | none => none
              | some buf =>
                  match setSlot buf g.2.length (some v) with
                  | none => none
                  | some buf₂ =>
                      some (0, { g.2 with data := some buf₂,
                                          length := g.2.length + 1 })

/-- cu_array_reserve from src/cu_array.h. -/
def cu_array_reserve {α : Type} (st : CuArray α) (new_capacity : Nat)
    (allocOk : Bool) : Nat × CuArray α :=
  match st.data with
  | none => (1, st)
  | some buf =>
      if st.capacity = 0 then (1, st)
      else if new_capacity ≤ st.capacity then (0, st)
      else if allocOk then
        (0, { st with data := some (reallocBuf buf new_capacity),
                      capacity := new_capacity })
      else (1, st)

/-- cu_array_extend from src/cu_array.h.  `items` is the (possibly NULL)
pointer to a block of `items.length` elements. -/
def cu_array_extend {α : Type} (st : CuArray α) (items : Option (List α))
    (allocOk : Bool) : Option (Nat × CuArray α) :=
  match items with
  | none => some (1, st)
  | some its =>
      match st.data with
      | none => some (1, st)
      | some _ =>
          if st.capacity = 0 then some (1, st)
          else
            let r := cu_array_reserve st (st.length + its.length) allocOk
            if r.1 ≠ 0 then some (1, st)
            else
              match r.2.data with
              | none => none
              | some buf =>
                  match writeItems buf r.2.length its with
                  | none => none
                  | some buf₂ =>
                      some (0, { r.2 with data := some buf₂,
                                          length := r.2.length + its.length })

/-- cu_array_insert from src/cu_array.h.  The shift is performed through the
pointers returned by cu_array_at, exactly as in the source:
memmove(at(pos+1), at(pos), (length - pos) * item_size) followed by
memcpy(at(pos), item, item_size). -/
def cu_array_insert {α : Type} (st : CuArray α) (item : Option α) (pos : Nat)
    (allocOk : Bool) : Option (Nat × CuArray α) :=
  match item with
  | none => some (1, st)
  | some v =>
      match st.data with
      | none => some (1, st)
      | some _ =>
          if st.capacity = 0 ∨ st.length < pos then some (1, st)
          else
            let g := if st.capacity ≤ st.length
                     then __cu_array_grow st allocOk else (0, st)
            if g.1 ≠ 0 then some (g.1, g.2)
            else
              match g.2.data with
              | none => none
              | some buf =>
                  match memmoveEl buf (cu_array_at g.2 (pos + 1))
                      (cu_array_at g.2 pos) (g.2.length - pos) with
                  | none => none
                  | some buf₂ =>
                      match memcpyEl buf₂ (cu_array_at g.2 pos) v with
                      | none => none
                      | some buf₃ =>
                          some (0, { g.2 with data := some buf₃,
                                              length := g.2.length + 1 })

/-- cu_array_remove_at from src/cu_array.h:
memmove(at(pos), at(pos+1), (length - pos) * item_size), then length -= 1. -/
def cu_array_remove_at {α : Type} (st : CuArray α) (pos : Nat) :
    Option (Nat × CuArray α) :=
  match st.data with
  | none => some (1, st)
  | some buf =>
      if st.capacity = 0 ∨ st.length ≤ pos then some (1, st)
      else
        match memmoveEl buf (cu_array_at st pos) (cu_array_at st (pos + 1))
            (st.length - pos) with
        | none => none
        | some buf₂ =>
            some (0, { st with data := some buf₂, length := st.length - 1 })

/-- cu_array_clear from src/cu_array.h: sets length to 0 and nothing else. -/
def cu_array_clear {α : Type} (st : CuArray α) : Nat × CuArray α :=
  (0, { st with length := 0 })

/-- The three-memcpy element swap through the static swap buffer in
__cu_array_qsort_internal (exact element exchange; both indices are proved
in bounds wherever the swap is reached). -/
def swapL {α : Type} (a : List α) (i j : Nat) : List α :=
  match a[i]?, a[j]? with
  | some x, some y => (a.set i y).set j x
  | _, _ => a

/-- The upward scan `while (compare(data + item_size * i, pivot) < 0) i++;`
of __cu_array_qsort_internal, with the pivot value p fixed for the scan.
Returns the index where the scan stops, or `none` when it runs past the end
of the buffer (an out-of-bounds read).  The scan stops by itself as soon as
the index leaves the buffer, so any fuel above a.length - i + 1 is
inexhaustible; partLoopF always passes a.length + 1. -/
def scanUp {α : Type} [LinearOrder α] (p : α) (a : List α) :
    Nat → Nat → Option Nat
  | 0, _ => none
  | fuel + 1, i =>
      match a[i]? with
      | none => none
      | some x => if x < p then scanUp p a fuel (i + 1) else some i

/-- The downward scan `while (compare(pivot, data + item_size * j) < 0) j--;`
of __cu_array_qsort_internal.  `j` is a size_t in the source: decrementing
past 0 wraps around and the next read is far out of bounds, modelled as
`none`.  A read above the end of the buffer is likewise `none`. -/
def scanDown {α : Type} [LinearOrder α] (p : α) (a : List α) :
    Nat → Option Nat
  | 0 =>
      match a[0]? with
      | none => none
      | some x => if p < x then none else some 0
  | j + 1 =>
      match a[j + 1]? with
      | none => none
      | some x => if p < x then scanDown p a j else some (j + 1)

/-- The partition loop `for (i = 0, j = len - 1;; i++, j--) ...` of
__cu_array_qsort_internal.  `m` is the fixed pivot SLOT `len / 2`; the pivot
is a pointer into the buffer, so its value is re-read from slot m at every
comparison (slot m never changes during the two scans of one iteration, but
a swap can change it between iterations).  Fuel bounds the number of loop
iterations; the sufficiency of the fuel supplied by qsortF is proved below.
Returns the final i together with the partitioned buffer. -/
def partLoopF {α : Type} [LinearOrder α] :
    Nat → List α → Nat → Nat → Nat → Option (Nat × List α)
  | 0, _, _, _, _ => none
  | fuel + 1, a, m, i, j =>
      match a[m]? with
      | none => none
      | some p =>
          match scanUp p a (a.length + 1) i with
          | none => none
          | some i₁ =>
              match scanDown p a j with
              | none => none
              | some j₁ =>
                  if j₁ ≤ i₁ then some (i₁, a)
                  else partLoopF fuel (swapL a i₁ j₁) m (i₁ + 1) (j₁ - 1)

/-- __cu_array_qsort_internal from src/cu_array.h: if len < 2 return; else
partition with pivot slot len / 2 starting from i = 0, j = len - 1, then
recurse on data[0, i) and data[i, len).  Fuel bounds the recursion depth;
`none` means an out-of-bounds access or exhausted fuel. -/
def qsortF {α : Type} [LinearOrder α] : Nat → List α → Option (List α)
  | 0, _ => none
  | fuel + 1, a =>
      if a.length < 2 then some a
      else
        match partLoopF (a.length + 1) a (a.length / 2) 0 (a.length - 1) with
        | none => none
        | some (i, a₂) =>
            match qsortF fuel (a₂.take i) with
            | none => none
            | some l =>
                match qsortF fuel (a₂.drop i) with
                | none => none
                | some r => some (l ++ r)

/-- Reads the first n slots of a buffer as element values; `none` when some
slot in range is uninitialized (the comparator would read junk). -/
def slotsToVals {α : Type} : List (Option α) → Option (List α)
  | [] => some []
  | none :: _ => none
  | some x :: rest => (slotsToVals rest).map (x :: ·)

/-- cu_array_qsort from src/cu_array.h: after the NULL/capacity checks it
runs __cu_array_qsort_internal on the first `length` elements and returns 0.
The fuel `length + 1` is enough for the recursion depth (proved below). -/
def cu_array_qsort {α : Type} [LinearOrder α] (st : CuArray α) :
    Option (Nat × CuArray α) :=
  match st.data with
  | none => some (1, st)
  | some buf =>
      if st.capacity = 0 then some (1, st)
      else
        match slotsToVals (buf.take st.length) with
        | none => none
        | some l =>
            match qsortF (l.length + 1) l with
            | none => none
            | some l₂ =>
                some (0, { st with
                  data := some (l₂.map some ++ buf.drop st.length) })

/-- A sequence of cu_array_append calls, each required to succeed (return 0),
with every allocation succeeding. -/
def appendAll {α : Type} (st : CuArray α) : List α → Option (CuArray α)
  | [] => some st
  | v :: rest =>
      match cu_array_append st (some v) true with
      | some (0, st₂) => appendAll st₂ rest
      | _ => none

/-- Well-formedness of an initialized array: non-null buffer of exactly
`capacity` slots, `length ≤ capacity`, nonzero capacity.  This is the state
every array reachable through the API satisfies. -/
def WF {α : Type} (st : CuArray α) : Prop :=
  ∃ buf, st.data = some buf ∧ buf.length = st.capacity ∧
    st.length ≤ st.capacity ∧ st.capacity ≠ 0

/-- A freshly initialized array of int (item_size 4): the result of
cu_array_init on the zero state. -/
def freshArr : CuArray Int := ⟨some (List.replicate 32 none), 4, 0, 32⟩

/-- freshArr after appending the single element 5. -/
def oneArr : CuArray Int := ⟨some (some 5 :: List.replicate 31 none), 4, 1, 32⟩

/-- freshArr after appending 3, 2, 0, 1. -/
def sortArr : CuArray Int :=
  ⟨some ([some 3, some 2, some 0, some 1] ++ List.replicate 28 none), 4, 4, 32⟩

/-- freshArr after extending with the 33 elements 0..32: cu_array_reserve
grows the capacity to exactly length + count, so length = capacity = 33. -/
def fullArr : CuArray Int :=
  ⟨some ((List.range 33).map (fun n => some (Int.ofNat n))), 4, 33, 33⟩

/-- freshArr after appending 9, 1, 4 (used to exercise the sort). -/
def threeArr : CuArray Int :=
  ⟨some ([some 9, some 1, some 4] ++ List.replicate 29 none), 4, 3, 32⟩

/-- freshArr after cu_array_reserve to capacity 100. -/
def reservedArr : CuArray Int :=
  ⟨some (List.replicate 32 none ++ List.replicate 68 none), 4, 0, 100⟩

/-! ## Theorems -/

/-- C8: cu_array_init on the zero state succeeds with capacity
CU_ARRAY_DEFAULT_SIZE = 32 and length 0; cu_array_deinit on an initialized
array (non-null data, nonzero capacity) resets everything to the zero state
(null buffer, length 0, capacity 0); cu_array_init on an array whose data is
non-null fails; and a second cu_array_deinit, on the zero state, fails
rather than being a no-op. -/
theorem init_deinit_round_trip {α : Type} :
    (∀ item_size : Nat,
      cu_array_init (zeroState : CuArray α) item_size true =
        (0, ⟨some (List.replicate CU_ARRAY_DEFAULT_SIZE none), item_size, 0,
             CU_ARRAY_DEFAULT_SIZE⟩)) ∧
    (∀ (st : CuArray α) buf, st.data = some buf → st.capacity ≠ 0 →
      cu_array_deinit st = (0, zeroState)) ∧
    (∀ (st : CuArray α) (item_size : Nat) (allocOk : Bool) buf,
      st.data = some buf → (cu_array_init st item_size allocOk).1 = 1) ∧
    (cu_array_deinit (zeroState : CuArray α)).1 = 1 := by
  refine ⟨fun isz => rfl, ?_, ?_, rfl⟩
  · intro st buf hd hc
    simp [cu_array_deinit, hd, hc]
  · intro st isz ok buf hd
    simp [cu_array_init, hd]

/-- Witness for init_deinit_round_trip at the concrete freshly initialized
int array. -/
theorem init_deinit_round_trip_witness :
    cu_array_deinit freshArr = (0, zeroState) ∧
    (cu_array_init freshArr 4 true).1 = 1 :=
  ⟨(init_deinit_round_trip (α := Int)).2.1 freshArr (List.replicate 32 none)
      rfl (by decide),
   (init_deinit_round_trip (α := Int)).2.2.1 freshArr 4 true
      (List.replicate 32 none) rfl⟩

/-- C9 counterexample: the claim says the uninitialized zero state is
rejected by every operation other than Clear, but cu_array_init accepts the
zero state (that is exactly its precondition) and returns 0. -/
theorem clear_zero_state_cex :
    (cu_array_init (zeroState : CuArray Int) 4 true).1 = 0 := rfl

/-- C9 (amended): cu_array_clear returns 0 on every non-null array whatever
its lifecycle state and modifies only the length field, setting it to 0;
every other operation except cu_array_init rejects the zero state. -/
theorem clear_succeeds_any_state {α : Type} [LinearOrder α] :
    (∀ st : CuArray α, cu_array_clear st = (0, { st with length := 0 })) ∧
    (cu_array_deinit (zeroState : CuArray α)).1 = 1 ∧
    (∀ pos, cu_array_at (zeroState : CuArray α) pos = none) ∧
    (∀ item allocOk,
      cu_array_append (zeroState : CuArray α) item allocOk =
        some (1, zeroState)) ∧
    (∀ items allocOk,
      cu_array_extend (zeroState : CuArray α) items allocOk =
        some (1, zeroState)) ∧
    (∀ item pos allocOk,
      cu_array_insert (zeroState : CuArray α) item pos allocOk =
        some (1, zeroState)) ∧
    (∀ n allocOk,
      cu_array_reserve (zeroState : CuArray α) n allocOk = (1, zeroState)) ∧
    (∀ pos, cu_array_remove_at (zeroState : CuArray α) pos =
        some (1, zeroState)) ∧
    cu_array_qsort (zeroState : CuArray α) = some (1, zeroState) := by
  refine ⟨fun st => rfl, rfl, fun pos => rfl, ?_, ?_, ?_,
    fun n ok => rfl, fun pos => rfl, rfl⟩
  · intro item ok; cases item <;> rfl
  · intro items ok; cases items <;> rfl
  · intro item pos ok; cases item <;> rfl

/-- C2 (code defect): cu_array_insert builds its memmove/memcpy pointers
with cu_array_at, which returns NULL for any index ≥ length.  Inserting at
position length (the append-at-end case the guard pos > length explicitly
admits) therefore passes a NULL destination to memcpy, and inserting at
position length - 1 passes a NULL destination to memmove: undefined
behaviour (`none`), not the successful shift the claim describes.  Shown on
a freshly initialized empty array at position 0 and on a one-element array
at positions 1 and 0. -/
theorem insert_at_length_is_ub :
    cu_array_init (zeroState : CuArray Int) 4 true = (0, freshArr) ∧
    cu_array_insert freshArr (some 7) 0 true = none ∧
    appendAll freshArr [5] = some oneArr ∧
    cu_array_insert oneArr (some 7) 1 true = none ∧
    cu_array_insert oneArr (some 7) 0 true = none :=
  ⟨rfl, rfl, rfl, rfl, rfl⟩

/-- C3 (code defect): cu_array_remove_at moves (length - pos) elements, one
more than the (length - pos - 1) the shift needs, with source pointer
cu_array_at(arr, pos + 1).  Removing the last element (pos = length - 1)
passes a NULL source to memmove, and removing from a full array
(length = capacity, reachable via cu_array_extend) reads one element past
the end of the buffer: undefined behaviour (`none`), not the successful
removal the claim describes. -/
theorem remove_at_last_is_ub :
    cu_array_remove_at oneArr 0 = none ∧
    cu_array_extend freshArr (some ((List.range 33).map Int.ofNat)) true =
      some (0, fullArr) ∧
    cu_array_remove_at fullArr 5 = none :=
  ⟨rfl, rfl, rfl⟩

/-- C1 (code defect): the pivot of __cu_array_qsort_internal is a POINTER to
the middle slot, and a swap into that slot changes the pivot value in the
middle of partitioning.  On the array 3, 2, 0, 1 (reachable by four appends
to a fresh array, sorted with cu_compare_int) the sort returns 0 but leaves
the array as 0, 2, 1, 3: At(1) = 2 and At(2) = 1 with compare(2, 1) > 0, so
the output is not sorted. -/
theorem qsort_missorts :
    appendAll freshArr [3, 2, 0, 1] = some sortArr ∧
    ∃ st₂, cu_array_qsort sortArr = some (0, st₂) ∧
      cu_array_at_val st₂ 1 = some (some 2) ∧
      cu_array_at_val st₂ 2 = some (some 1) ∧
      ¬ ((2 : Int) ≤ 1) :=
  ⟨rfl,
   ⟨⟨some ([some 0, some 2, some 1, some 3] ++ List.replicate 28 none),
      4, 4, 32⟩, by decide, by decide, by decide, by decide⟩⟩

/-- On failure __cu_array_grow leaves the array untouched. -/
theorem grow_fail_eq {α : Type} (st : CuArray α) (allocOk : Bool)
    (h : (__cu_array_grow st allocOk).1 ≠ 0) :
    (__cu_array_grow st allocOk).2 = st := by
  unfold __cu_array_grow at *
  cases hd : st.data with
  | none => rfl
  | some buf =>
    dsimp only at h ⊢
    split_ifs at h ⊢ <;> simp_all

/-- C4: a mutating operation that returns failure (nonzero) leaves the array
exactly as it was: same data, item_size, length, capacity.  Covers append,
extend, insert, remove_at and reserve, over every argument and over both
outcomes of the allocation oracle. -/
theorem failed_calls_do_not_mutate {α : Type} (st : CuArray α) :
    (∀ item allocOk r st₂,
      cu_array_append st item allocOk = some (r, st₂) → r ≠ 0 → st₂ = st) ∧
    (∀ items allocOk r st₂,
      cu_array_extend st items allocOk = some (r, st₂) → r ≠ 0 → st₂ = st) ∧
    (∀ item pos allocOk r st₂,
      cu_array_insert st item pos allocOk = some (r, st₂) → r ≠ 0 →
        st₂ = st) ∧
    (∀ pos r st₂,
      cu_array_remove_at st pos = some (r, st₂) → r ≠ 0 → st₂ = st) ∧
    (∀ n allocOk r st₂,
      cu_array_reserve st n allocOk = (r, st₂) → r ≠ 0 → st₂ = st) := by
  refine ⟨?_, ?_, ?_, ?_, ?_⟩
  · intro item ok r st₂ h hr
    unfold cu_array_append at h
    cases item with
    | none => simp only [Option.some.injEq, Prod.mk.injEq] at h; exact h.2.symm
    | some v =>
      cases hd : st.data with
      | none =>
        rw [hd] at h
        simp only [Option.some.injEq, Prod.mk.injEq] at h; exact h.2.symm
      | some buf =>
        rw [hd] at h
        dsimp only at h
        by_cases hc : st.capacity = 0
        · rw [if_pos hc] at h
          simp only [Option.some.injEq, Prod.mk.injEq] at h; exact h.2.symm
        · rw [if_neg hc] at h
          by_cases hgrow : st.capacity ≤ st.length
          · rw [if_pos hgrow] at h
            by_cases hgf : (__cu_array_grow st ok).1 ≠ 0
            · rw [if_pos hgf] at h
              simp only [Option.some.injEq, Prod.mk.injEq] at h
              rw [← h.2]; exact grow_fail_eq st ok hgf
            · rw [if_neg hgf] at h
              repeat' split at h
              all_goals simp_all
          · rw [if_neg hgrow] at h
            rw [if_neg (by simp : ¬ (((0 : Nat), st).1 ≠ 0))] at h
            repeat' split at h
            all_goals simp_all
  · intro items ok r st₂ h hr
    unfold cu_array_extend at h
    cases items with
    | none => simp only [Option.some.injEq, Prod.mk.injEq] at h; exact h.2.symm
    | some its =>
      cases hd : st.data with
      | none =>
        rw [hd] at h
        simp only [Option.some.injEq, Prod.mk.injEq] at h; exact h.2.symm
      | some buf =>
        rw [hd] at h
        dsimp only at h
        by_cases hc : st.capacity = 0
        · rw [if_pos hc] at h
          simp only [Option.some.injEq, Prod.mk.injEq] at h; exact h.2.symm
        · rw [if_neg hc] at h
          by_cases hrf : (cu_array_reserve st (st.length + its.length) ok).1 ≠ 0
          · rw [if_pos hrf] at h
            simp only [Option.some.injEq, Prod.mk.injEq] at h; exact h.2.symm
          · rw [if_neg hrf] at h
            repeat' split at h
            all_goals simp_all
  · intro item pos ok r st₂ h hr
    unfold cu_array_insert at h
    cases item with
    | none => simp only [Option.some.injEq, Prod.mk.injEq] at h; exact h.2.symm
    | some v =>
      cases hd : st.data with
      | none =>
        rw [hd] at h
        simp only [Option.some.injEq, Prod.mk.injEq] at h; exact h.2.symm
      | some buf =>
        rw [hd] at h
        dsimp only at h
        by_cases hc : st.capacity = 0 ∨ st.length < pos
        · rw [if_pos hc] at h
          simp only [Option.some.injEq, Prod.mk.injEq] at h; exact h.2.symm
        · rw [if_neg hc] at h
          by_cases hgrow : st.capacity ≤ st.length
          · rw [if_pos hgrow] at h
            by_cases hgf : (__cu_array_grow st ok).1 ≠ 0
            · rw [if_pos hgf] at h
              simp only [Option.some.injEq, Prod.mk.injEq] at h
              rw [← h.2]; exact grow_fail_eq st ok hgf
            · rw [if_neg hgf] at h
              repeat' split at h
              all_goals simp_all
          · rw [if_neg hgrow] at h
            rw [if_neg (by simp : ¬ (((0 : Nat), st).1 ≠ 0))] at h
            repeat' split at h
            all_goals simp_all
  · intro pos r st₂ h hr
    unfold cu_array_remove_at at h
    cases hd : st.data with
    | none =>
      rw [hd] at h
      simp only [Option.some.injEq, Prod.mk.injEq] at h; exact h.2.symm
    | some buf =>
      rw [hd] at h
      dsimp only at h
      by_cases hc : st.capacity = 0 ∨ st.length ≤ pos
      · rw [if_pos hc] at h
        simp only [Option.some.injEq, Prod.mk.injEq] at h; exact h.2.symm
      · rw [if_neg hc] at h
        repeat' split at h
        all_goals simp_all
  · intro n ok r st₂ h hr
    unfold cu_array_reserve at h
    cases hd : st.data with
    | none =>
      rw [hd] at h
      simp only [Prod.mk.injEq] at h; exact h.2.symm
    | some buf =>
      rw [hd] at h
      dsimp only at h
      split_ifs at h <;> simp only [Prod.mk.injEq] at h
      · exact h.2.symm
      · exact absurd h.1.symm hr
      · exact absurd h.1.symm hr
      · exact h.2.symm

/-- Witness for failed_calls_do_not_mutate: append to a full array (length
= capacity = 33) with a failing reallocation returns 1 and the state equals
the pre-call state. -/
theorem failed_calls_do_not_mutate_witness :
    cu_array_append fullArr (some 5) false = some (1, fullArr) ∧
    fullArr = fullArr :=
  ⟨by decide,
   (failed_calls_do_not_mutate fullArr).1 (some 5) false 1 fullArr
     (by decide) (by decide)⟩

/-- realloc always yields a buffer of exactly the requested size. -/
theorem reallocBuf_length {α : Type} (buf : List (Option α)) (n : Nat) :
    (reallocBuf buf n).length = n := by
  simp [reallocBuf]
  omega

/-- What a successful __cu_array_grow did: capacity doubled exactly, length
and item_size untouched, buffer reallocated, and the guards passed. -/
theorem grow_succ_spec {α : Type} (st : CuArray α) (allocOk : Bool)
    (gst : CuArray α) (h : __cu_array_grow st allocOk = (0, gst)) :
    gst.capacity = st.capacity * 2 ∧ gst.length = st.length ∧
    gst.item_size = st.item_size ∧ st.length < st.capacity * 2 ∧
    st.capacity ≠ 0 ∧
    ∃ buf, st.data = some buf ∧
      gst.data = some (reallocBuf buf (st.capacity * 2)) := by
  unfold __cu_array_grow at h
  cases hd : st.data with
  | none => rw [hd] at h; exact absurd (congrArg Prod.fst h) (by simp)
  | some buf =>
    rw [hd] at h
    dsimp only at h
    split_ifs at h with hc hle hok
    · exact absurd (congrArg Prod.fst h) (by simp)
    · exact absurd (congrArg Prod.fst h) (by simp)
    · have h2 := (Prod.mk.injEq .. ▸ h).2
      subst h2
      exact ⟨rfl, rfl, rfl, by omega, hc, buf, rfl, rfl⟩
    · exact absurd (congrArg Prod.fst h) (by simp)

/-- What a successful cu_array_reserve did: either nothing (capacity already
sufficient) or a reallocation to exactly the requested capacity. -/
theorem reserve_succ_spec {α : Type} (st : CuArray α) (n : Nat)
    (allocOk : Bool) (rst : CuArray α)
    (h : cu_array_reserve st n allocOk = (0, rst)) :
    rst.length = st.length ∧ rst.item_size = st.item_size ∧
    rst.capacity ≠ 0 ∧ n ≤ rst.capacity ∧
    ((rst = st ∧ n ≤ st.capacity) ∨
      (st.capacity < n ∧ rst.capacity = n ∧
        ∃ buf, st.data = some buf ∧ rst.data = some (reallocBuf buf n))) := by
  unfold cu_array_reserve at h
  cases hd : st.data with
  | none => rw [hd] at h; exact absurd (congrArg Prod.fst h) (by simp)
  | some buf =>
    rw [hd] at h
    dsimp only at h
    split_ifs at h with hc hle hok
    · exact absurd (congrArg Prod.fst h) (by simp)
    · have h2 := (Prod.mk.injEq .. ▸ h).2
      subst h2
      exact ⟨rfl, rfl, hc, hle, Or.inl ⟨rfl, hle⟩⟩
    · have h2 := (Prod.mk.injEq .. ▸ h).2
      subst h2
      refine ⟨rfl, rfl, ?_, ?_, Or.inr ⟨by omega, rfl, buf, rfl, rfl⟩⟩
      · dsimp only
        omega
      · dsimp only
        omega
    · exact absurd (congrArg Prod.fst h) (by simp)

/-- C5: after every successful mutating operation capacity ≥ length holds
(for remove_at and reserve assuming the invariant held before the call; the
other operations re-establish it unconditionally); the capacity changes only
when the pending write would exceed it (append/insert: only when length had
reached capacity; extend: only when length + count exceeded capacity;
reserve: only when the request exceeded capacity); under the default
CU_GROWTH_RATE_SPACE policy a successful __cu_array_grow sets capacity to
exactly twice the old value; and __cu_array_grow fails whenever the computed
new capacity does not strictly exceed the current length. -/
theorem capacity_growth_invariant {α : Type} (st : CuArray α) :
    (∀ item allocOk st₂,
      cu_array_append st item allocOk = some (0, st₂) →
        st₂.length ≤ st₂.capacity ∧
        (st₂.capacity ≠ st.capacity → st.capacity ≤ st.length)) ∧
    (∀ its allocOk st₂,
      cu_array_extend st (some its) allocOk = some (0, st₂) →
        st₂.length ≤ st₂.capacity ∧
        (st₂.capacity ≠ st.capacity → st.capacity < st.length + its.length)) ∧
    (∀ item pos allocOk st₂,
      cu_array_insert st item pos allocOk = some (0, st₂) →
        st₂.length ≤ st₂.capacity ∧
        (st₂.capacity ≠ st.capacity → st.capacity ≤ st.length)) ∧
    (∀ pos st₂,
      cu_array_remove_at st pos = some (0, st₂) →
        (st.length ≤ st.capacity → st₂.length ≤ st₂.capacity) ∧
        st₂.capacity = st.capacity) ∧
    (∀ n allocOk st₂,
      cu_array_reserve st n allocOk = (0, st₂) →
        (st.length ≤ st.capacity → st₂.length ≤ st₂.capacity) ∧
        (st₂.capacity ≠ st.capacity → st.capacity < n)) ∧
    ((cu_array_clear st).2.capacity = st.capacity ∧
      (cu_array_clear st).2.length = 0) ∧
    (∀ allocOk st₂, __cu_array_grow st allocOk = (0, st₂) →
      st₂.capacity = st.capacity * 2) ∧
    (∀ allocOk, st.capacity * 2 ≤ st.length →
      (__cu_array_grow st allocOk).1 = 1) := by
  refine ⟨?_, ?_, ?_, ?_, ?_, ⟨rfl, rfl⟩, ?_, ?_⟩
  · intro item ok st₂ h
    unfold cu_array_append at h
    cases item with
    | none => simp at h
    | some v =>
      cases hd : st.data with
      | none => rw [hd] at h; simp at h
      | some buf =>
        rw [hd] at h
        dsimp only at h
        by_cases hc : st.capacity = 0
        · rw [if_pos hc] at h; simp at h
        · rw [if_neg hc] at h
          by_cases hgrow : st.capacity ≤ st.length
          · rw [if_pos hgrow] at h
            rcases hgp : __cu_array_grow st ok with ⟨gr, gst⟩
            rw [hgp] at h
            cases gr with
            | zero =>
              rw [if_neg (by simp)] at h
              obtain ⟨hcap2, hlen2, -, hlt2, -, buf₀, -, hgd⟩ :=
                grow_succ_spec st ok gst hgp
              dsimp only at h
              rw [hgd] at h
              dsimp only at h
              split at h
              · simp at h
              · simp only [Option.some.injEq, Prod.mk.injEq] at h
                obtain ⟨-, h2⟩ := h
                subst h2
                exact ⟨by dsimp only; omega, fun _ => hgrow⟩
            | succ gr => rw [if_pos (by simp)] at h; simp at h
          · rw [if_neg hgrow] at h
            rw [if_neg (by simp : ¬ (((0 : Nat), st).1 ≠ 0))] at h
            dsimp only at h
            rw [hd] at h
            dsimp only at h
            split at h
            · simp at h
            · simp only [Option.some.injEq, Prod.mk.injEq] at h
              obtain ⟨-, h2⟩ := h
              subst h2
              refine ⟨by dsimp only; omega, fun hne => ?_⟩
              exact absurd rfl hne
  · intro its ok st₂ h
    unfold cu_array_extend at h
    dsimp only at h
    cases hd : st.data with
    | none => rw [hd] at h; simp at h
    | some buf =>
      rw [hd] at h
      dsimp only at h
      by_cases hc : st.capacity = 0
      · rw [if_pos hc] at h; simp at h
      · rw [if_neg hc] at h
        rcases hrp : cu_array_reserve st (st.length + its.length) ok
          with ⟨rr, rst⟩
        rw [hrp] at h
        cases rr with
        | zero =>
          rw [if_neg (by simp)] at h
          obtain ⟨hlen2, -, -, hn, hdisj⟩ :=
            reserve_succ_spec st (st.length + its.length) ok rst hrp
          obtain ⟨bufR, hbr⟩ : ∃ bufR, rst.data = some bufR := by
            rcases hdisj with ⟨h1, -⟩ | ⟨-, -, bufR, -, h2⟩
            · exact ⟨buf, by rw [h1, hd]⟩
            · exact ⟨_, h2⟩
          dsimp only at h
          rw [hbr] at h
          dsimp only at h
          split at h
          · simp at h
          · simp only [Option.some.injEq, Prod.mk.injEq] at h
            obtain ⟨-, h2⟩ := h
            subst h2
            refine ⟨by dsimp only; omega, fun hne => ?_⟩
            rcases hdisj with ⟨h1, -⟩ | ⟨hlt, -, -⟩
            · exact absurd (by rw [h1]) hne
            · exact hlt
        | succ rr => rw [if_pos (by simp)] at h; simp at h
  · intro item pos ok st₂ h
    unfold cu_array_insert at h
    cases item with
    | none => simp at h
    | some v =>
      cases hd : st.data with
      | none => rw [hd] at h; simp at h
      | some buf =>
        rw [hd] at h
        dsimp only at h
        by_cases hc : st.capacity = 0 ∨ st.length < pos
        · rw [if_pos hc] at h; simp at h
        · rw [if_neg hc] at h
          by_cases hgrow : st.capacity ≤ st.length
          · rw [if_pos hgrow] at h
            rcases hgp : __cu_array_grow st ok with ⟨gr, gst⟩
            rw [hgp] at h
            cases gr with
            | zero =>
              rw [if_neg (by simp)] at h
              obtain ⟨hcap2, hlen2, -, hlt2, -, buf₀, -, hgd⟩ :=
                grow_succ_spec st ok gst hgp
              dsimp only at h
              rw [hgd] at h
              dsimp only at h
              split at h
              · simp at h
              · split at h
                · simp at h
                · simp only [Option.some.injEq, Prod.mk.injEq] at h
                  obtain ⟨-, h2⟩ := h
                  subst h2
                  exact ⟨by dsimp only; omega, fun _ => hgrow⟩
            | succ gr => rw [if_pos (by simp)] at h; simp at h
          · rw [if_neg hgrow] at h
            rw [if_neg (by simp : ¬ (((0 : Nat), st).1 ≠ 0))] at h
            dsimp only at h
            rw [hd] at h
            dsimp only at h
            split at h
            · simp at h
            · split at h
              · simp at h
              · simp only [Option.some.injEq, Prod.mk.injEq] at h
                obtain ⟨-, h2⟩ := h
                subst h2
                refine ⟨by dsimp only; omega, fun hne => ?_⟩
                exact absurd rfl hne
  · intro pos st₂ h
    unfold cu_array_remove_at at h
    cases hd : st.data with
    | none => rw [hd] at h; simp at h
    | some buf =>
      rw [hd] at h
      dsimp only at h
      by_cases hc : st.capacity = 0 ∨ st.length ≤ pos
      · rw [if_pos hc] at h; simp at h
      · rw [if_neg hc] at h
        split at h
        · simp at h
        · simp only [Option.some.injEq, Prod.mk.injEq] at h
          obtain ⟨-, h2⟩ := h
          subst h2
          exact ⟨by dsimp only; omega, rfl⟩
  · intro n ok st₂ h
    obtain ⟨hlen2, -, -, hn, hdisj⟩ := reserve_succ_spec st n ok st₂ h
    rcases hdisj with ⟨h1, -⟩ | ⟨hlt, hcap2, -⟩
    · subst h1
      exact ⟨fun hle => hle, fun hne => absurd rfl hne⟩
    · exact ⟨fun hle => by omega, fun _ => hlt⟩
  · intro ok st₂ h
    exact (grow_succ_spec st ok st₂ h).1
  · intro ok hle
    unfold __cu_array_grow
    cases hd : st.data with
    | none => rfl
    | some buf =>
      dsimp only
      split_ifs with h1 <;> rfl

/-- Witness for capacity_growth_invariant: reserving capacity 100 on a fresh
32-capacity array succeeds and the conclusion holds there. -/
theorem capacity_growth_invariant_witness :
    cu_array_reserve freshArr 100 true = (0, reservedArr) ∧
    ((freshArr.length ≤ freshArr.capacity →
      reservedArr.length ≤ reservedArr.capacity) ∧
     (reservedArr.capacity ≠ freshArr.capacity → freshArr.capacity < 100)) :=
  ⟨by decide,
   (capacity_growth_invariant freshArr).2.2.2.2.1 100 true reservedArr
     (by decide)⟩

/-- Reading an initialized array through cu_array_at dereferences the slot
at the requested logical index. -/
theorem at_val_eq {α : Type} (st : CuArray α) (buf : List (Option α))
    (hd : st.data = some buf) (hc : st.capacity ≠ 0) (i : Nat)
    (hi : i < st.length) : cu_array_at_val st i = buf[i]? := by
  unfold cu_array_at_val cu_array_at
  rw [hd]
  dsimp only
  rw [if_neg (by omega)]

/-- Reallocation preserves the slots of the old buffer that survive. -/
theorem reallocBuf_getElem {α : Type} (buf : List (Option α)) (n i : Nat)
    (hi : i < buf.length) (hn : buf.length ≤ n) :
    (reallocBuf buf n)[i]? = buf[i]? := by
  unfold reallocBuf
  rw [List.getElem?_append_left (by rw [List.length_take]; omega)]
  exact List.getElem?_take_of_lt (by omega)

/-- Length of the buffer produced by a block write. -/
theorem writeSeg_length {α : Type} (bufR : List (Option α)) (items : List α)
    (d : Nat) (hle : d + items.length ≤ bufR.length) :
    (bufR.take d ++ items.map some ++
      bufR.drop (d + items.length)).length = bufR.length := by
  simp [List.length_take, List.length_drop]
  omega

/-- A block write leaves the slots below the write untouched. -/
theorem writeSeg_getElem_lt {α : Type} (bufR : List (Option α))
    (items : List α) (d i : Nat) (hle : d + items.length ≤ bufR.length)
    (hi : i < d) :
    (bufR.take d ++ items.map some ++
      bufR.drop (d + items.length))[i]? = bufR[i]? := by
  rw [List.append_assoc,
    List.getElem?_append_left (by rw [List.length_take]; omega)]
  exact List.getElem?_take_of_lt hi

/-- A block write stores the t-th item at slot d + t. -/
theorem writeSeg_getElem_mid {α : Type} (bufR : List (Option α))
    (items : List α) (d t : Nat) (hle : d + items.length ≤ bufR.length)
    (ht : t < items.length) :
    (bufR.take d ++ items.map some ++
      bufR.drop (d + items.length))[(d + t)]? = some (some items[t]) := by
  rw [List.append_assoc,
    List.getElem?_append_right (by rw [List.length_take]; omega)]
  have hlt : (bufR.take d).length = d := by rw [List.length_take]; omega
  rw [hlt]
  have hidx : d + t - d = t := by omega
  rw [hidx]
  rw [List.getElem?_append_left (by rw [List.length_map]; omega)]
  rw [List.getElem?_map]
  rw [List.getElem?_eq_getElem ht]
  rfl

/-- On an initialized array with nonzero capacity, cu_array_reserve with a
working allocator always succeeds. -/
theorem reserve_succeeds {α : Type} (st : CuArray α) (n : Nat)
    (buf : List (Option α)) (hd : st.data = some buf)
    (hc0 : st.capacity ≠ 0) : (cu_array_reserve st n true).1 = 0 := by
  unfold cu_array_reserve
  rw [hd]
  dsimp only
  rw [if_neg hc0]
  by_cases hle : n ≤ st.capacity
  · rw [if_pos hle]
  · rw [if_neg hle, if_pos rfl]

/-- A single cu_array_append on a well-formed array with a working allocator
succeeds, adds the element at index length, and leaves the previous elements
readable unchanged. -/
theorem append_step {α : Type} (st : CuArray α) (v : α) (hWF : WF st) :
    ∃ st₂, cu_array_append st (some v) true = some (0, st₂) ∧ WF st₂ ∧
      st₂.length = st.length + 1 ∧ st₂.item_size = st.item_size ∧
      (∀ i, i < st.length → cu_array_at_val st₂ i = cu_array_at_val st i) ∧
      cu_array_at_val st₂ st.length = some (some v) := by
  obtain ⟨buf, hd, hbl, hlc, hc0⟩ := hWF
  unfold cu_array_append
  rw [hd]
  dsimp only
  rw [if_neg hc0]
  by_cases hgrow : st.capacity ≤ st.length
  · have hleq : st.length = st.capacity := le_antisymm hlc hgrow
    have hgp : __cu_array_grow st true =
        (0, { st with data := some (reallocBuf buf (st.capacity * 2)),
                      capacity := st.capacity * 2 }) := by
      unfold __cu_array_grow
      rw [hd]
      dsimp only
      rw [if_neg hc0, if_neg (by omega), if_pos rfl]
    rw [if_pos hgrow, hgp]
    rw [if_neg (by simp)]
    dsimp only
    have hset : setSlot (reallocBuf buf (st.capacity * 2)) st.length
        (some v) =
        some ((reallocBuf buf (st.capacity * 2)).set st.length (some v)) := by
      unfold setSlot
      rw [if_pos (by rw [reallocBuf_length]; omega)]
    rw [hset]
    refine ⟨_, rfl, ?_, rfl, rfl, ?_, ?_⟩
    · refine ⟨_, rfl, ?_, ?_, ?_⟩
      · dsimp only
        rw [List.length_set, reallocBuf_length]
      · dsimp only
        omega
      · dsimp only
        omega
    · intro i hi
      rw [at_val_eq _ _ rfl (by dsimp only; omega) i (by dsimp only; omega),
        at_val_eq st buf hd hc0 i hi]
      rw [List.getElem?_set_ne (by omega)]
      exact reallocBuf_getElem buf _ i (by omega) (by omega)
    · rw [at_val_eq _ _ rfl (by dsimp only; omega) st.length
        (by dsimp only; omega)]
      rw [List.getElem?_set_eq_of_lt _ (by rw [reallocBuf_length]; omega)]
  · rw [if_neg hgrow, if_neg (by simp : ¬ (((0 : Nat), st).1 ≠ 0))]
    dsimp only
    rw [hd]
    dsimp only
    have hset : setSlot buf st.length (some v) =
        some (buf.set st.length (some v)) := by
      unfold setSlot
      rw [if_pos (by omega)]
    rw [hset]
    refine ⟨_, rfl, ?_, rfl, rfl, ?_, ?_⟩
    · refine ⟨_, rfl, ?_, ?_, ?_⟩
      · dsimp only
        rw [List.length_set]
        exact hbl
      · dsimp only
        omega
      · dsimp only
        exact hc0
    · intro i hi
      rw [at_val_eq _ _ rfl (by dsimp only; exact hc0) i
          (by dsimp only; omega),
        at_val_eq st buf hd hc0 i hi]
      exact List.getElem?_set_ne (by omega)
    · rw [at_val_eq _ _ rfl (by dsimp only; exact hc0) st.length
        (by dsimp only; omega)]
      exact List.getElem?_set_eq_of_lt _ (by omega)

/-- A sequence of appends on a well-formed array succeeds; the final length
is the old length plus the number of items, old elements are unchanged, and
the t-th appended item is readable at index (old length) + t. -/
theorem appendAll_spec {α : Type} :
    ∀ (items : List α) (st : CuArray α), WF st →
    ∃ st₂, appendAll st items = some st₂ ∧ WF st₂ ∧
      st₂.length = st.length + items.length ∧
      st₂.item_size = st.item_size ∧
      (∀ i, i < st.length → cu_array_at_val st₂ i = cu_array_at_val st i) ∧
      (∀ t (ht : t < items.length),
        cu_array_at_val st₂ (st.length + t) = some (some items[t])) := by
  intro items
  induction items with
  | nil =>
    intro st hWF
    exact ⟨st, rfl, hWF, by simp, rfl, fun i _ => rfl,
      fun t ht => absurd ht (Nat.not_lt_zero t)⟩
  | cons v rest ih =>
    intro st hWF
    obtain ⟨st₁, happ, hWF₁, hlen₁, hisz₁, hpres₁, hlast₁⟩ :=
      append_step st v hWF
    obtain ⟨st₂, hall, hWF₂, hlen₂, hisz₂, hpres₂, hnew₂⟩ := ih st₁ hWF₁
    refine ⟨st₂, ?_, hWF₂, by rw [hlen₂, hlen₁]; simp; omega,
      by rw [hisz₂, hisz₁], ?_, ?_⟩
    · simp only [appendAll]
      rw [happ]
      exact hall
    · intro i hi
      rw [hpres₂ i (by omega), hpres₁ i hi]
    · intro t ht
      cases t with
      | zero =>
        have h0 : st.length + 0 = st.length := rfl
        rw [h0, hpres₂ st.length (by omega), hlast₁]
        rfl
      | succ t₁ =>
        have ht₁ : t₁ < rest.length := by
          simp only [List.length_cons] at ht
          omega
        have hidx : st.length + (t₁ + 1) = st₁.length + t₁ := by omega
        rw [hidx, hnew₂ t₁ ht₁]
        simp only [List.getElem_cons_succ]

/-- A cu_array_extend on a well-formed array with a working allocator
succeeds, appends the block at the end and leaves old elements readable
unchanged. -/
theorem extend_spec {α : Type} (st : CuArray α) (items : List α)
    (hWF : WF st) :
    ∃ stE, cu_array_extend st (some items) true = some (0, stE) ∧ WF stE ∧
      stE.length = st.length + items.length ∧
      stE.item_size = st.item_size ∧
      (∀ i, i < st.length → cu_array_at_val stE i = cu_array_at_val st i) ∧
      (∀ t (ht : t < items.length),
        cu_array_at_val stE (st.length + t) = some (some items[t])) := by
  obtain ⟨buf, hd, hbl, hlc, hc0⟩ := hWF
  rcases hrp : cu_array_reserve st (st.length + items.length) true
    with ⟨rr, rst⟩
  have hrr : rr = 0 := by
    have := reserve_succeeds st (st.length + items.length) buf hd hc0
    rw [hrp] at this
    exact this
  subst hrr
  obtain ⟨hlen₂, hisz₂, hcne, hn, hdisj⟩ :=
    reserve_succ_spec st (st.length + items.length) true rst hrp
  obtain ⟨bufR, hbr, hbrl, hpre⟩ :
      ∃ bufR, rst.data = some bufR ∧ bufR.length = rst.capacity ∧
        ∀ i, i < st.length → bufR[i]? = buf[i]? := by
    rcases hdisj with ⟨h1, -⟩ | ⟨hlt, hcap2, buf₀, hbd, h2⟩
    · subst h1
      exact ⟨buf, hd, hbl, fun i _ => rfl⟩
    · rw [hd] at hbd
      obtain hbd := Option.some.inj hbd
      subst hbd
      refine ⟨_, h2, by rw [reallocBuf_length, hcap2], ?_⟩
      intro i hi
      exact reallocBuf_getElem buf _ i (by omega) (by omega)
  unfold cu_array_extend
  dsimp only
  rw [hd]
  dsimp only
  rw [if_neg hc0, hrp]
  rw [if_neg (by simp)]
  dsimp only
  rw [hbr]
  dsimp only
  have hwle : rst.length + items.length ≤ bufR.length := by omega
  have hw : writeItems bufR rst.length items =
      some (bufR.take rst.length ++ items.map some ++
        bufR.drop (rst.length + items.length)) := by
    unfold writeItems
    rw [if_pos hwle]
  rw [hw]
  refine ⟨_, rfl, ?_, by dsimp only; omega, by dsimp only; exact hisz₂,
    ?_, ?_⟩
  · refine ⟨_, rfl, ?_, ?_, ?_⟩
    · dsimp only
      rw [writeSeg_length bufR items rst.length hwle, hbrl]
    · dsimp only
      omega
    · dsimp only
      exact hcne
  · intro i hi
    rw [at_val_eq _ _ rfl (by dsimp only; exact hcne) i
        (by dsimp only; omega),
      at_val_eq st buf hd hc0 i hi]
    rw [writeSeg_getElem_lt bufR items rst.length i hwle (by omega)]
    exact hpre i hi
  · intro t ht
    rw [at_val_eq _ _ rfl (by dsimp only; exact hcne) (st.length + t)
        (by dsimp only; omega)]
    have hidx : st.length + t = rst.length + t := by omega
    rw [hidx]
    exact writeSeg_getElem_mid bufR items rst.length t hwle ht

/-- C6 counterexample: the claim reads "for every initialized array ...
At(i) returns the i-th appended element for all 0 ≤ i < N", but on an
initialized array that already holds the element 5, appending 7 (N = 1)
leaves At(0) = 5, not the 0-th appended element 7: the claim ignores the
elements present before the sequence of appends. -/
theorem append_monotonicity_cex :
    appendAll oneArr [7] =
      some ⟨some (some 5 :: some 7 :: List.replicate 30 none), 4, 2, 32⟩ ∧
    cu_array_at_val
      (⟨some (some 5 :: some 7 :: List.replicate 30 none), 4, 2, 32⟩ :
        CuArray Int) 0 = some (some 5) ∧
    (5 : Int) ≠ 7 := ⟨by decide, by decide, by decide⟩

/-- C6 (amended): on a well-formed initialized array of length L, every
single append succeeds and increases length by exactly 1; a sequence of N
appends therefore ends with length L + N, leaves the first L elements
unchanged, and the t-th appended element is read back unchanged at index
L + t (so at index t when the array starts empty). -/
theorem append_monotonicity {α : Type} (st : CuArray α) (items : List α)
    (hWF : WF st) :
    (∀ (st₀ : CuArray α) (v : α), WF st₀ →
      ∃ st₁, cu_array_append st₀ (some v) true = some (0, st₁) ∧
        st₁.length = st₀.length + 1) ∧
    ∃ st₂, appendAll st items = some st₂ ∧
      st₂.length = st.length + items.length ∧
      (∀ i, i < st.length → cu_array_at_val st₂ i = cu_array_at_val st i) ∧
      (∀ t (ht : t < items.length),
        cu_array_at_val st₂ (st.length + t) = some (some items[t])) := by
  constructor
  · intro st₀ v h₀
    obtain ⟨st₁, happ, -, hlen, -, -, -⟩ := append_step st₀ v h₀
    exact ⟨st₁, happ, hlen⟩
  · obtain ⟨st₂, h1, -, h2, -, h3, h4⟩ := appendAll_spec items st hWF
    exact ⟨st₂, h1, h2, h3, h4⟩

/-- Witness for append_monotonicity: appending 3 then 7 to a freshly
initialized empty int array. -/
theorem append_monotonicity_witness :
    ∃ st₂, appendAll freshArr [3, 7] = some st₂ ∧
      st₂.length = freshArr.length + ([3, 7] : List Int).length ∧
      (∀ i, i < freshArr.length →
        cu_array_at_val st₂ i = cu_array_at_val freshArr i) ∧
      (∀ t (ht : t < ([3, 7] : List Int).length),
        cu_array_at_val st₂ (freshArr.length + t) =
          some (some (([3, 7] : List Int)[t]))) :=
  (append_monotonicity freshArr [3, 7]
    ⟨List.replicate 32 none, rfl, by decide, by decide, by decide⟩).2

/-- C7: on a well-formed initialized array, extending with a non-null block
of k elements succeeds and produces the same logical contents (length and
every readable element) as k sequential appends of the same elements in
order; extending with count 0 succeeds and leaves the array completely
unchanged. -/
theorem extend_equiv_appends {α : Type} (st : CuArray α) (items : List α)
    (hWF : WF st) :
    (∃ stE stA, cu_array_extend st (some items) true = some (0, stE) ∧
      appendAll st items = some stA ∧ stE.length = stA.length ∧
      ∀ i, i < stE.length →
        cu_array_at_val stE i = cu_array_at_val stA i) ∧
    cu_array_extend st (some ([] : List α)) true = some (0, st) := by
  constructor
  · obtain ⟨stE, hE, -, hlenE, -, hpresE, hmidE⟩ := extend_spec st items hWF
    obtain ⟨stA, hA, -, hlenA, -, hpresA, hmidA⟩ := appendAll_spec items st hWF
    refine ⟨stE, stA, hE, hA, by omega, ?_⟩
    intro i hi
    rw [hlenE] at hi
    by_cases hlt : i < st.length
    · rw [hpresE i hlt, hpresA i hlt]
    · have ht : i - st.length < items.length := by omega
      have h1 := hmidE (i - st.length) ht
      have h2 := hmidA (i - st.length) ht
      have hidx : st.length + (i - st.length) = i := by omega
      rw [hidx] at h1 h2
      rw [h1, h2]
  · obtain ⟨buf, hd, hbl, hlc, hc0⟩ := hWF
    have hres : cu_array_reserve st (st.length + ([] : List α).length) true =
        (0, st) := by
      unfold cu_array_reserve
      rw [hd]
      dsimp only
      rw [if_neg hc0, if_pos (by simp; omega)]
    unfold cu_array_extend
    dsimp only
    rw [hd]
    dsimp only
    rw [if_neg hc0, hres]
    rw [if_neg (by simp)]
    dsimp only
    rw [hd]
    dsimp only
    have hw : writeItems buf st.length ([] : List α) = some buf := by
      unfold writeItems
      rw [if_pos (by simp; omega)]
      simp
    rw [hw]
    rcases hst : st with ⟨d, isz, len, cap⟩
    rw [hst] at hd
    dsimp only at hd
    subst hd
    rfl

/-- Witness for extend_equiv_appends: extending a fresh int array with
1, 2 matches two appends, and the empty extend is the identity. -/
theorem extend_equiv_appends_witness :
    (∃ stE stA, cu_array_extend freshArr (some [1, 2]) true =
        some (0, stE) ∧
      appendAll freshArr [1, 2] = some stA ∧ stE.length = stA.length ∧
      ∀ i, i < stE.length →
        cu_array_at_val stE i = cu_array_at_val stA i) ∧
    cu_array_extend freshArr (some ([] : List Int)) true =
      some (0, freshArr) :=
  extend_equiv_appends freshArr [1, 2]
    ⟨List.replicate 32 none, rfl, by decide, by decide, by decide⟩

/-- swapL preserves the buffer length. -/
theorem swapL_length {α : Type} (a : List α) (i j : Nat) :
    (swapL a i j).length = a.length := by
  unfold swapL
  cases h1 : a[i]? with
  | none => rfl
  | some x =>
    cases h2 : a[j]? with
    | none => rfl
    | some y => simp [List.length_set]

/-- After a swap, slot i holds the old value of slot j. -/
theorem swapL_getElem_fst {α : Type} (a : List α) (i j : Nat) (x y : α)
    (hi : a[i]? = some x) (hj : a[j]? = some y) (hne : i ≠ j) :
    (swapL a i j)[i]? = some y := by
  unfold swapL
  rw [hi, hj]
  dsimp only
  rw [List.getElem?_set_ne (Ne.symm hne)]
  exact List.getElem?_set_eq_of_lt y (List.getElem?_eq_some.mp hi).1

/-- After a swap, slot j holds the old value of slot i. -/
theorem swapL_getElem_snd {α : Type} (a : List α) (i j : Nat) (x y : α)
    (hi : a[i]? = some x) (hj : a[j]? = some y) :
    (swapL a i j)[j]? = some x := by
  unfold swapL
  rw [hi, hj]
  dsimp only
  exact List.getElem?_set_eq_of_lt x
    (by rw [List.length_set]; exact (List.getElem?_eq_some.mp hj).1)

/-- A swap leaves every other slot unchanged. -/
theorem swapL_getElem_other {α : Type} (a : List α) (i j t : Nat)
    (h1 : t ≠ i) (h2 : t ≠ j) : (swapL a i j)[t]? = a[t]? := by
  unfold swapL
  cases hi : a[i]? with
  | none => rfl
  | some x =>
    cases hj : a[j]? with
    | none => rfl
    | some y =>
      dsimp only
      rw [List.getElem?_set_ne (Ne.symm h2), List.getElem?_set_ne (Ne.symm h1)]

/-- Where the upward scan stops: at or after its start, inside the buffer,
on an element that does not compare below the pivot. -/
theorem scanUp_spec {α : Type} [LinearOrder α] (p : α) (a : List α) :
    ∀ fuel i k, scanUp p a fuel i = some k →
      i ≤ k ∧ k < a.length ∧ ∃ x, a[k]? = some x ∧ p ≤ x := by
  intro fuel
  induction fuel with
  | zero => intro i k h; simp [scanUp] at h
  | succ fuel ih =>
    intro i k h
    simp only [scanUp] at h
    cases hg : a[i]? with
    | none => rw [hg] at h; exact absurd h (by simp)
    | some x =>
      rw [hg] at h
      dsimp only at h
      by_cases hx : x < p
      · rw [if_pos hx] at h
        obtain ⟨h1, h2, h3⟩ := ih (i + 1) k h
        exact ⟨by omega, h2, h3⟩
      · rw [if_neg hx] at h
        obtain hk := Option.some.inj h
        subst hk
        exact ⟨le_refl i, (List.getElem?_eq_some.mp hg).1,
          x, hg, le_of_not_lt hx⟩

/-- The upward scan cannot run out of the buffer if some element at or after
the start does not compare below the pivot; fuel beyond the buffer is
inexhaustible. -/
theorem scanUp_isSome {α : Type} [LinearOrder α] (p : α) (a : List α) :
    ∀ fuel i, a.length + 1 ≤ fuel + i →
      (∃ k x, i ≤ k ∧ k < a.length ∧ a[k]? = some x ∧ p ≤ x) →
      ∃ k, scanUp p a fuel i = some k := by
  intro fuel
  induction fuel with
  | zero =>
    intro i hf hw
    obtain ⟨k, x, hik, hkl, -, -⟩ := hw
    omega
  | succ fuel ih =>
    intro i hf hw
    obtain ⟨k, x, hik, hkl, hx, hpx⟩ := hw
    simp only [scanUp]
    cases hg : a[i]? with
    | none =>
      have hge : a.length ≤ i := by
        by_contra hc
        rw [List.getElem?_eq_getElem (by omega)] at hg
        exact absurd hg (by simp)
      omega
    | some y =>
      dsimp only
      by_cases hy : y < p
      · rw [if_pos hy]
        apply ih (i + 1) (by omega)
        refine ⟨k, x, ?_, hkl, hx, hpx⟩
        rcases Nat.lt_or_ge i k with hlt | hge
        · omega
        · have hik2 : i = k := by omega
          subst hik2
          rw [hg] at hx
          obtain hxy := Option.some.inj hx
          subst hxy
          exact absurd hpx (not_le_of_lt hy)
      · rw [if_neg hy]
        exact ⟨i, rfl⟩

/-- Where the downward scan stops: at or before its start, inside the
buffer, on an element that does not compare above the pivot, with every
element strictly between the stop and the start comparing above the pivot. -/
theorem scanDown_spec {α : Type} [LinearOrder α] (p : α) (a : List α) :
    ∀ j k, scanDown p a j = some k →
      k ≤ j ∧ k < a.length ∧ (∃ x, a[k]? = some x ∧ x ≤ p) ∧
      ∀ t x, k < t → t ≤ j → a[t]? = some x → p < x := by
  intro j
  induction j with
  | zero =>
    intro k h
    simp only [scanDown] at h
    cases hg : a[0]? with
    | none => rw [hg] at h; exact absurd h (by simp)
    | some x =>
      rw [hg] at h
      dsimp only at h
      by_cases hx : p < x
      · rw [if_pos hx] at h; exact absurd h (by simp)
      · rw [if_neg hx] at h
        obtain hk := Option.some.inj h
        subst hk
        exact ⟨le_refl 0, (List.getElem?_eq_some.mp hg).1,
          ⟨x, hg, le_of_not_lt hx⟩,
          fun t y h1 h2 _ => absurd h1 (by omega)⟩
  | succ j ih =>
    intro k h
    simp only [scanDown] at h
    cases hg : a[j + 1]? with
    | none => rw [hg] at h; exact absurd h (by simp)
    | some x =>
      rw [hg] at h
      dsimp only at h
      by_cases hx : p < x
      · rw [if_pos hx] at h
        obtain ⟨h1, h2, h3, h4⟩ := ih k h
        refine ⟨by omega, h2, h3, ?_⟩
        intro t y ht1 ht2 hty
        rcases Nat.lt_or_ge t (j + 1) with hlt | hge
        · exact h4 t y ht1 (by omega) hty
        · have hteq : t = j + 1 := by omega
          subst hteq
          rw [hg] at hty
          obtain hyx := Option.some.inj hty
          subst hyx
          exact hx
      · rw [if_neg hx] at h
        obtain hk := Option.some.inj h
        subst hk
        exact ⟨le_refl _, (List.getElem?_eq_some.mp hg).1,
          ⟨x, hg, le_of_not_lt hx⟩,
          fun t y h1 h2 _ => absurd h1 (by omega)⟩

/-- The downward scan cannot wrap below 0 if some element at or below the
start does not compare above the pivot. -/
theorem scanDown_isSome {α : Type} [LinearOrder α] (p : α) (a : List α) :
    ∀ j, j < a.length →
      (∃ t x, t ≤ j ∧ a[t]? = some x ∧ x ≤ p) →
      ∃ k, scanDown p a j = some k := by
  intro j
  induction j with
  | zero =>
    intro hj hw
    obtain ⟨t, x, ht, hx, hxp⟩ := hw
    have ht0 : t = 0 := by omega
    subst ht0
    simp only [scanDown]
    rw [hx]
    dsimp only
    rw [if_neg (not_lt_of_le hxp)]
    exact ⟨0, rfl⟩
  | succ j ih =>
    intro hj hw
    obtain ⟨t, x, ht, hx, hxp⟩ := hw
    simp only [scanDown]
    cases hg : a[j + 1]? with
    | none =>
      rw [List.getElem?_eq_getElem hj] at hg
      exact absurd hg (by simp)
    | some y =>
      dsimp only
      by_cases hy : p < y
      · rw [if_pos hy]
        apply ih (by omega)
        refine ⟨t, x, ?_, hx, hxp⟩
        rcases Nat.lt_or_ge t (j + 1) with hlt | hge
        · omega
        · have hteq : t = j + 1 := by omega
          subst hteq
          rw [hg] at hx
          obtain hxy := Option.some.inj hx
          subst hxy
          exact absurd hy (not_lt_of_le hxp)
      · rw [if_neg hy]
        exact ⟨j + 1, rfl⟩

/-- Invariant proof for the partition loop of __cu_array_qsort_internal.
With the pivot slot m inside the buffer, the scan start j inside the buffer,
a high sentinel (a slot at or after i whose value is at least the pivot
value), a low sentinel (a slot at or before j whose value is at most the
pivot value), and either i ≥ 1 (every iteration after a swap) or m between 1
and j (the first iteration), the loop finishes with no out-of-bounds access
at some break index i₁ with 1 ≤ i₁ < length, leaving the length unchanged.
The sentinels are re-established after every swap even though the swap may
overwrite the pivot slot and change the pivot value. -/
theorem partLoopF_spec {α : Type} [LinearOrder α] :
    ∀ (fuel : Nat) (a : List α) (m i j : Nat),
      m < a.length → j < a.length →
      (∃ k p x, i ≤ k ∧ k < a.length ∧ a[m]? = some p ∧ a[k]? = some x ∧
        p ≤ x) →
      (∃ k p x, k ≤ j ∧ k < a.length ∧ a[m]? = some p ∧ a[k]? = some x ∧
        x ≤ p) →
      (1 ≤ i ∨ (m ≤ j ∧ 1 ≤ m)) →
      a.length - i < fuel →
      ∃ i₁ a₂, partLoopF fuel a m i j = some (i₁, a₂) ∧
        1 ≤ i₁ ∧ i₁ < a.length ∧ a₂.length = a.length := by
  intro fuel
  induction fuel with
  | zero =>
    intro a m i j hm hj hBhi hBlo hstart hf
    omega
  | succ fuel ih =>
    intro a m i j hm hj hBhi hBlo hstart hf
    obtain ⟨p, hp⟩ : ∃ p, a[m]? = some p := ⟨_, List.getElem?_eq_getElem hm⟩
    obtain ⟨khi, p₁, xhi, hik, hkl, hp₁, hxk, hpx⟩ := hBhi
    rw [hp] at hp₁
    obtain hpe := Option.some.inj hp₁
    subst hpe
    obtain ⟨klo, p₂, xlo, hkj, hkl₂, hp₂, hxk₂, hxp₂⟩ := hBlo
    rw [hp] at hp₂
    obtain hpe := Option.some.inj hp₂
    subst hpe
    obtain ⟨i₁, hscu⟩ := scanUp_isSome p a (a.length + 1) i (by omega)
      ⟨khi, xhi, hik, hkl, hxk, hpx⟩
    obtain ⟨hii₁, hi₁l, x₁, hx₁, hpx₁⟩ :=
      scanUp_spec p a (a.length + 1) i i₁ hscu
    obtain ⟨j₁, hscd⟩ := scanDown_isSome p a j hj ⟨klo, xlo, hkj, hxk₂, hxp₂⟩
    obtain ⟨hj₁j, hj₁l, ⟨y₁, hy₁, hy₁p⟩, habove⟩ := scanDown_spec p a j j₁ hscd
    have hwit_le : ∀ t x, t ≤ j → a[t]? = some x → x ≤ p → t ≤ j₁ := by
      intro t x htj hxt hxp
      by_contra hgt
      exact absurd (habove t x (by omega) htj hxt) (not_lt_of_le hxp)
    simp only [partLoopF]
    rw [hp]
    dsimp only
    rw [hscu]
    dsimp only
    rw [hscd]
    dsimp only
    by_cases hbreak : j₁ ≤ i₁
    · rw [if_pos hbreak]
      refine ⟨i₁, a, rfl, ?_, hi₁l, rfl⟩
      rcases hstart with h1 | ⟨hmj, hm1⟩
      · omega
      · have := hwit_le m p hmj hp (le_refl p)
        omega
    · rw [if_neg hbreak]
      have hij : i₁ < j₁ := by omega
      have hlen₂ : (swapL a i₁ j₁).length = a.length := swapL_length a i₁ j₁
      have hg_fst : (swapL a i₁ j₁)[i₁]? = some y₁ :=
        swapL_getElem_fst a i₁ j₁ x₁ y₁ hx₁ hy₁ (by omega)
      have hg_snd : (swapL a i₁ j₁)[j₁]? = some x₁ :=
        swapL_getElem_snd a i₁ j₁ x₁ y₁ hx₁ hy₁
      have hg_oth : ∀ t, t ≠ i₁ → t ≠ j₁ →
          (swapL a i₁ j₁)[t]? = a[t]? :=
        fun t h1 h2 => swapL_getElem_other a i₁ j₁ t h1 h2
      obtain ⟨p₂, hp₂⟩ : ∃ q, (swapL a i₁ j₁)[m]? = some q :=
        ⟨_, List.getElem?_eq_getElem (show m < (swapL a i₁ j₁).length by
          omega)⟩
      have hstep : ∀ q, (swapL a i₁ j₁)[m]? = some q → m ≠ i₁ → m ≠ j₁ →
          q = p := by
        intro q hq h1 h2
        rw [hg_oth m h1 h2, hp] at hq
        exact (Option.some.inj hq).symm
      have hBhi₂ : ∃ k q x, i₁ + 1 ≤ k ∧ k < (swapL a i₁ j₁).length ∧
          (swapL a i₁ j₁)[m]? = some q ∧ (swapL a i₁ j₁)[k]? = some x ∧
          q ≤ x := by
        by_cases hmi : i₁ + 1 ≤ m
        · exact ⟨m, p₂, p₂, hmi, by omega, hp₂, hp₂, le_refl p₂⟩
        · have hq : p₂ ≤ x₁ := by
            by_cases hmeq : m = i₁
            · rw [hmeq, hg_fst] at hp₂
              obtain he := Option.some.inj hp₂
              subst he
              exact le_trans hy₁p hpx₁
            · have hqe := hstep p₂ hp₂ hmeq (by omega)
              subst hqe
              exact hpx₁
          exact ⟨j₁, p₂, x₁, by omega, by omega, hp₂, hg_snd, hq⟩
      have hBlo₂ : ∃ k q x, k ≤ j₁ - 1 ∧ k < (swapL a i₁ j₁).length ∧
          (swapL a i₁ j₁)[m]? = some q ∧ (swapL a i₁ j₁)[k]? = some x ∧
          x ≤ q := by
        by_cases hmj : m ≤ j₁ - 1
        · exact ⟨m, p₂, p₂, hmj, by omega, hp₂, hp₂, le_refl p₂⟩
        · have hq : y₁ ≤ p₂ := by
            by_cases hmeq : m = j₁
            · rw [hmeq, hg_snd] at hp₂
              obtain he := Option.some.inj hp₂
              subst he
              exact le_trans hy₁p hpx₁
            · have hqe := hstep p₂ hp₂ (by omega) hmeq
              subst hqe
              exact hy₁p
          exact ⟨i₁, p₂, y₁, by omega, by omega, hp₂, hg_fst, hq⟩
      obtain ⟨i₂, a₃, hres, h1, h2, h3⟩ :=
        ih (swapL a i₁ j₁) m (i₁ + 1) (j₁ - 1) (by omega) (by omega)
          hBhi₂ hBlo₂ (Or.inl (by omega)) (by omega)
      exact ⟨i₂, a₃, hres, h1, by omega, by omega⟩

/-- With fuel above the buffer length, the recursion of
__cu_array_qsort_internal runs to completion with every access in bounds:
each partition returns a break index strictly inside the segment, so both
recursive calls are on strictly shorter segments. -/
theorem qsortF_some {α : Type} [LinearOrder α] :
    ∀ (fuel : Nat) (a : List α), a.length < fuel →
      ∃ b, qsortF fuel a = some b := by
  intro fuel
  induction fuel with
  | zero => intro a h; omega
  | succ fuel ih =>
    intro a hlen
    by_cases h2 : a.length < 2
    · exact ⟨a, by simp only [qsortF]; rw [if_pos h2]⟩
    · push_neg at h2
      have hm : a.length / 2 < a.length := Nat.div_lt_self (by omega) (by omega)
      have hm1 : 1 ≤ a.length / 2 := by omega
      obtain ⟨p, hp⟩ : ∃ p, a[a.length / 2]? = some p :=
        ⟨_, List.getElem?_eq_getElem hm⟩
      obtain ⟨i₁, a₂, hpart, h1, hlt, hlen₂⟩ :=
        partLoopF_spec (a.length + 1) a (a.length / 2) 0 (a.length - 1)
          hm (by omega)
          ⟨a.length / 2, p, p, by omega, hm, hp, hp, le_refl p⟩
          ⟨a.length / 2, p, p, by omega, hm, hp, hp, le_refl p⟩
          (Or.inr ⟨by omega, hm1⟩)
          (by omega)
      obtain ⟨l, hl⟩ := ih (a₂.take i₁) (by rw [List.length_take]; omega)
      obtain ⟨r, hr⟩ := ih (a₂.drop i₁) (by rw [List.length_drop]; omega)
      refine ⟨l ++ r, ?_⟩
      simp only [qsortF]
      rw [if_neg (by omega), hpart]
      dsimp only
      rw [hl]
      dsimp only
      rw [hr]

/-- C10: on every initialized array whose live elements are actual values,
and for every comparator consistent with a total order (embedded as the
linear order of α, since the code consults the comparator only through
compare(x, y) < 0), cu_array_qsort returns 0: the recursion of
__cu_array_qsort_internal terminates within recursion depth length, both
index scans stay inside [0, length), the pivot slot length / 2 is inside
[0, length), and every swap touches only indices inside [0, length) — in
the model any out-of-bounds access or unbounded recursion yields `none`
instead of `some`. -/
theorem qsort_terminates_in_bounds {α : Type} [LinearOrder α]
    (st : CuArray α) (buf : List (Option α)) (l : List α)
    (hd : st.data = some buf) (hc : st.capacity ≠ 0)
    (hvals : slotsToVals (buf.take st.length) = some l) :
    ∃ st₂, cu_array_qsort st = some (0, st₂) := by
  unfold cu_array_qsort
  rw [hd]
  dsimp only
  rw [if_neg hc, hvals]
  dsimp only
  obtain ⟨b, hb⟩ := qsortF_some (l.length + 1) l (by omega)
  rw [hb]
  exact ⟨_, rfl⟩

/-- Witness for qsort_terminates_in_bounds at the concrete three-element
int array 9, 1, 4. -/
theorem qsort_terminates_in_bounds_witness :
    ∃ st₂, cu_array_qsort threeArr = some (0, st₂) :=
  qsort_terminates_in_bounds threeArr
    ([some 9, some 1, some 4] ++ List.replicate 29 none) [9, 1, 4]
    rfl (by decide) (by decide)

end CUtils
